import Mathlib

set_option maxRecDepth 20000

/-!
Verification of the `timeago` library (fuzzy time formatting).

The Go source is shallowly embedded:

* `time.Duration` (an `int64` count of nanoseconds) and `time.Time` are
  modelled as `ℤ`.  Where the `int64` range is observable it is modelled
  explicitly: `time.Time.Sub` saturates its result to the `int64` range
  (`subSat`), and `int64` negation wraps at the minimum value (`negInt64`,
  the `-d` of the source).  Where a claim's truth otherwise depends on the
  machine range the theorem carries an explicit `d < 2^63` hypothesis.
* The source's `round` converts durations to `float64`, divides, adds `0.5`
  and truncates back to an integer.  IEEE-754 binary64 arithmetic with
  round-to-nearest, ties-to-even is modelled exactly on `ℚ` by `fl`
  (all values arising here are far from binary64 overflow and subnormal
  territory, where binary64 agrees with the ideal 53-bit rounding `fl`).
* `time.Duration.String` and the digit-stripping regexp plus `strconv.Atoi`
  of `durationNumber` are modelled character-for-character after the Go
  standard library algorithm (`fmtInt`/`fmtFrac`).
* `time.Time.Format` (layout-driven absolute date formatting) and the
  go-i18n pluralisation lookup are external collaborators of the package;
  they enter the model as explicit function parameters (`timeFormat`,
  `plur`).

To keep every definition evaluable by the kernel, rational arithmetic
inside the executable definitions is expressed through `Rat.divInt` and
integer operations (`qadd`, `qmul`, …); bridge lemmas identify these with
the ordinary field operations on `ℚ`, which the proofs then use.
-/

namespace Timeago

/-! ### Kernel-evaluable rational operations and their bridges -/

/-- Addition on `ℚ`, kernel-evaluable. -/
def qadd (a b : ℚ) : ℚ := Rat.divInt (a.num * b.den + b.num * a.den) (a.den * b.den)

/-- Subtraction on `ℚ`, kernel-evaluable. -/
def qsub (a b : ℚ) : ℚ := Rat.divInt (a.num * b.den - b.num * a.den) (a.den * b.den)

/-- Multiplication on `ℚ`, kernel-evaluable. -/
def qmul (a b : ℚ) : ℚ := Rat.divInt (a.num * b.num) (a.den * b.den)

/-- Division on `ℚ`, kernel-evaluable. -/
def qdiv (a b : ℚ) : ℚ := Rat.divInt (a.num * b.den) (a.den * b.num)

/-- Floor on `ℚ`, kernel-evaluable. -/
def qfloor (q : ℚ) : ℤ := q.num / q.den

/-- `2 ^ e` on `ℚ` for an integer exponent, kernel-evaluable. -/
def pow2z : ℤ → ℚ
  | Int.ofNat n => ((2 ^ n : ℤ) : ℚ)
  | Int.negSucc n => Rat.divInt 1 (2 ^ (n + 1))

theorem num_eq_mul_den (r : ℚ) : (r.num : ℚ) = r * r.den := by
  have hden : (r.den : ℚ) ≠ 0 := Nat.cast_ne_zero.mpr r.den_nz
  exact ((eq_div_iff hden).mp (Rat.num_div_den r).symm).symm

theorem qadd_eq (a b : ℚ) : qadd a b = a + b := by
  have ha : (a.den : ℚ) ≠ 0 := Nat.cast_ne_zero.mpr a.den_nz
  have hb : (b.den : ℚ) ≠ 0 := Nat.cast_ne_zero.mpr b.den_nz
  rw [qadd, Rat.divInt_eq_div, div_eq_iff (by push_cast; exact mul_ne_zero ha hb)]
  push_cast
  rw [num_eq_mul_den a, num_eq_mul_den b]
  ring

theorem qsub_eq (a b : ℚ) : qsub a b = a - b := by
  have ha : (a.den : ℚ) ≠ 0 := Nat.cast_ne_zero.mpr a.den_nz
  have hb : (b.den : ℚ) ≠ 0 := Nat.cast_ne_zero.mpr b.den_nz
  rw [qsub, Rat.divInt_eq_div, div_eq_iff (by push_cast; exact mul_ne_zero ha hb)]
  push_cast
  rw [num_eq_mul_den a, num_eq_mul_den b]
  ring

theorem qmul_eq (a b : ℚ) : qmul a b = a * b := by
  have ha : (a.den : ℚ) ≠ 0 := Nat.cast_ne_zero.mpr a.den_nz
  have hb : (b.den : ℚ) ≠ 0 := Nat.cast_ne_zero.mpr b.den_nz
  rw [qmul, Rat.divInt_eq_div, div_eq_iff (by push_cast; exact mul_ne_zero ha hb)]
  push_cast
  rw [num_eq_mul_den a, num_eq_mul_den b]
  ring

theorem qdiv_eq (a b : ℚ) : qdiv a b = a / b := by
  have ha : (a.den : ℚ) ≠ 0 := Nat.cast_ne_zero.mpr a.den_nz
  have hb : (b.den : ℚ) ≠ 0 := Nat.cast_ne_zero.mpr b.den_nz
  rcases eq_or_ne b 0 with hb0 | hb0
  · subst hb0
    simp [qdiv]
  · have hnum : (b.num : ℚ) ≠ 0 := by
      simpa using Rat.num_ne_zero.mpr hb0
    rw [qdiv, Rat.divInt_eq_div,
      div_eq_iff (by push_cast; exact mul_ne_zero ha hnum), div_mul_eq_mul_div,
      eq_div_iff hb0]
    push_cast
    rw [num_eq_mul_den a, num_eq_mul_den b]
    ring

theorem qfloor_eq (q : ℚ) : qfloor q = ⌊q⌋ := (Rat.floor_def).symm

theorem halfQ_eq : Rat.divInt 1 2 = (1 : ℚ) / 2 := by
  rw [Rat.divInt_eq_div]
  norm_num

theorem pow2z_eq (e : ℤ) : pow2z e = (2 : ℚ) ^ e := by
  cases e with
  | ofNat n =>
    simp [pow2z]
  | negSucc n =>
    rw [pow2z, Rat.divInt_eq_div, zpow_negSucc]
    push_cast
    norm_num

/-! ### Base-2 logarithm, kernel-evaluable -/

/-- Fuel-driven base-2 logarithm. -/
def log2fuel : ℕ → ℕ → ℕ
  | 0, _ => 0
  | fuel + 1, n => if n < 2 then 0 else log2fuel fuel (n / 2) + 1

/-- `⌊log₂ n⌋` for `1 ≤ n` (and `0` at `0`). -/
def nlog2 (n : ℕ) : ℕ := log2fuel n n

theorem log2fuel_spec : ∀ fuel n, 1 ≤ n → n ≤ fuel →
    2 ^ log2fuel fuel n ≤ n ∧ n < 2 ^ (log2fuel fuel n + 1) := by
  intro fuel
  induction fuel with
  | zero => intro n h1 h2; omega
  | succ fuel ih =>
    intro n h1 h2
    rw [log2fuel]
    by_cases hn : n < 2
    · have : n = 1 := by omega
      simp [hn, this]
    · have hrec := ih (n / 2) (by omega) (by omega)
      simp only [hn, if_false]
      constructor
      · calc 2 ^ (log2fuel fuel (n / 2) + 1) = 2 * 2 ^ log2fuel fuel (n / 2) := by ring
        _ ≤ 2 * (n / 2) := by omega
        _ ≤ n := by omega
      · calc n < 2 * (n / 2) + 2 := by omega
        _ ≤ 2 * 2 ^ (log2fuel fuel (n / 2) + 1) := by omega
        _ = 2 ^ (log2fuel fuel (n / 2) + 1 + 1) := by ring

theorem nlog2_spec (n : ℕ) (h : 1 ≤ n) :
    2 ^ nlog2 n ≤ n ∧ n < 2 ^ (nlog2 n + 1) :=
  log2fuel_spec n n h le_rfl

/-! ### Binary64 rounding, modelled on `ℚ` -/

/-- Round a rational to the nearest integer, ties to even. -/
def rne (x : ℚ) : ℤ :=
  if qsub x (qfloor x : ℚ) < Rat.divInt 1 2 then qfloor x
  else if Rat.divInt 1 2 < qsub x (qfloor x : ℚ) then qfloor x + 1
  else if qfloor x % 2 = 0 then qfloor x else qfloor x + 1

/-- `⌊log₂ q⌋` of a positive rational, as an integer. -/
def qexp (q : ℚ) : ℤ :=
  if pow2z ((nlog2 q.num.natAbs : ℤ) - (nlog2 q.den : ℤ)) ≤ q then
    (nlog2 q.num.natAbs : ℤ) - (nlog2 q.den : ℤ)
  else (nlog2 q.num.natAbs : ℤ) - (nlog2 q.den : ℤ) - 1

/-- Binary64 rounding of a positive rational: scale the mantissa into
`[2^52, 2^53)`, round to nearest-even, scale back. -/
def flPos (q : ℚ) : ℚ :=
  qmul ((rne (qmul q (pow2z (52 - qexp q)))) : ℚ) (pow2z (qexp q - 52))

/-- Binary64 rounding (round to nearest, ties to even) of a rational.
Overflow and subnormals are irrelevant for the magnitudes handled by
`timeago` and are not modelled. -/
def fl (q : ℚ) : ℚ :=
  if q = 0 then 0 else if q < 0 then -flPos (-q) else flPos q

/-- Go's float-to-integer conversion: truncation toward zero. -/
def truncQ (q : ℚ) : ℤ := if q < 0 then -qfloor (-q) else qfloor q

theorem rne_eq_std (x : ℚ) :
    rne x =
      if x - ⌊x⌋ < 1 / 2 then ⌊x⌋
      else if 1 / 2 < x - ⌊x⌋ then ⌊x⌋ + 1
      else if ⌊x⌋ % 2 = 0 then ⌊x⌋ else ⌊x⌋ + 1 := by
  simp only [rne, qsub_eq, qfloor_eq, halfQ_eq]

theorem rne_bounds (x : ℚ) : x - 1 / 2 ≤ (rne x : ℚ) ∧ (rne x : ℚ) ≤ x + 1 / 2 := by
  have hfl : (⌊x⌋ : ℚ) ≤ x := Int.floor_le x
  have hfu : x < ⌊x⌋ + 1 := Int.lt_floor_add_one x
  rw [rne_eq_std]
  split_ifs with h1 h2 h3 <;> constructor <;> push_cast <;> linarith

theorem floor_le_rne (x : ℚ) : ⌊x⌋ ≤ rne x := by
  rw [rne_eq_std]
  split_ifs <;> omega

theorem rne_le_floor_add_one (x : ℚ) : rne x ≤ ⌊x⌋ + 1 := by
  rw [rne_eq_std]
  split_ifs <;> omega

theorem rne_mono {x y : ℚ} (hxy : x ≤ y) : rne x ≤ rne y := by
  rcases lt_or_eq_of_le (Int.floor_le_floor hxy) with hf | hf
  · calc rne x ≤ ⌊x⌋ + 1 := rne_le_floor_add_one x
    _ ≤ ⌊y⌋ := by omega
    _ ≤ rne y := floor_le_rne y
  · rw [rne_eq_std, rne_eq_std, ← hf]
    have hfr : x - ⌊x⌋ ≤ y - ⌊x⌋ := by linarith
    split_ifs <;> first | omega | linarith

theorem two_ne_zeroQ : (2 : ℚ) ≠ 0 := two_ne_zero

theorem zpow_natCast_ofNat (n : ℕ) : ((2 ^ n : ℕ) : ℚ) = (2 : ℚ) ^ (n : ℤ) := by
  push_cast
  rw [← zpow_natCast (2 : ℚ) n]

theorem qexp_spec (q : ℚ) (hq : 0 < q) :
    (2 : ℚ) ^ qexp q ≤ q ∧ q < (2 : ℚ) ^ (qexp q + 1) := by
  have hnum : 0 < q.num := Rat.num_pos.mpr hq
  have ha : 1 ≤ q.num.natAbs := Int.natAbs_pos.mpr hnum.ne'
  have hb : 1 ≤ q.den := q.pos
  obtain ⟨hla1, hla2⟩ := nlog2_spec q.num.natAbs ha
  obtain ⟨hlb1, hlb2⟩ := nlog2_spec q.den hb
  have hbQ : (0 : ℚ) < q.den := by exact_mod_cast Nat.pos_of_ne_zero q.den_nz
  have hnumZ : (q.num.natAbs : ℤ) = q.num := Int.natAbs_of_nonneg hnum.le
  have hnumQ : (q.num.natAbs : ℚ) = (q.num : ℚ) := by
    rw [← hnumZ]
    exact (Int.cast_natCast q.num.natAbs).symm
  have hq_eq : q = (q.num.natAbs : ℚ) / q.den := by rw [hnumQ, Rat.num_div_den]
  set la : ℤ := (nlog2 q.num.natAbs : ℤ) with hla_def
  set lb : ℤ := (nlog2 q.den : ℤ) with hlb_def
  have haQ_lt : (q.num.natAbs : ℚ) < (2 : ℚ) ^ (la + 1) := by
    have h0 : ((q.num.natAbs : ℕ) : ℚ) < ((2 ^ (nlog2 q.num.natAbs + 1) : ℕ) : ℚ) := by
      exact_mod_cast hla2
    rw [zpow_natCast_ofNat] at h0
    have : ((nlog2 q.num.natAbs + 1 : ℕ) : ℤ) = la + 1 := by push_cast; ring
    rwa [this] at h0
  have haQ_ge : (2 : ℚ) ^ la ≤ (q.num.natAbs : ℚ) := by
    have h0 : ((2 ^ nlog2 q.num.natAbs : ℕ) : ℚ) ≤ ((q.num.natAbs : ℕ) : ℚ) := by
      exact_mod_cast hla1
    rwa [zpow_natCast_ofNat] at h0
  have hbQ_lt : (q.den : ℚ) < (2 : ℚ) ^ (lb + 1) := by
    have h0 : ((q.den : ℕ) : ℚ) < ((2 ^ (nlog2 q.den + 1) : ℕ) : ℚ) := by exact_mod_cast hlb2
    rw [zpow_natCast_ofNat] at h0
    have : ((nlog2 q.den + 1 : ℕ) : ℤ) = lb + 1 := by push_cast; ring
    rwa [this] at h0
  have hbQ_ge : (2 : ℚ) ^ lb ≤ (q.den : ℚ) := by
    have h0 : ((2 ^ nlog2 q.den : ℕ) : ℚ) ≤ ((q.den : ℕ) : ℚ) := by exact_mod_cast hlb1
    rwa [zpow_natCast_ofNat] at h0
  have hupper : q < (2 : ℚ) ^ (la - lb + 1) := by
    rw [hq_eq, div_lt_iff₀ hbQ]
    have hsplit : (2 : ℚ) ^ (la + 1) = (2 : ℚ) ^ (la - lb + 1) * (2 : ℚ) ^ lb := by
      rw [← zpow_add₀ two_ne_zeroQ]
      congr 1
      ring
    have hstep : (2 : ℚ) ^ (la - lb + 1) * (2 : ℚ) ^ lb ≤ (2 : ℚ) ^ (la - lb + 1) * q.den :=
      mul_le_mul_of_nonneg_left hbQ_ge (by positivity)
    linarith
  have hlower : (2 : ℚ) ^ (la - lb - 1) < q := by
    rw [hq_eq, lt_div_iff₀ hbQ]
    have hstep : (2 : ℚ) ^ (la - lb - 1) * (q.den : ℚ) <
        (2 : ℚ) ^ (la - lb - 1) * (2 : ℚ) ^ (lb + 1) :=
      mul_lt_mul_of_pos_left hbQ_lt (by positivity)
    have hsplit : (2 : ℚ) ^ (la - lb - 1) * (2 : ℚ) ^ (lb + 1) = (2 : ℚ) ^ la := by
      rw [← zpow_add₀ two_ne_zeroQ]
      congr 1
      ring
    linarith
  rw [qexp]
  simp only [pow2z_eq]
  split_ifs with h
  · exact ⟨h, by simpa using hupper⟩
  · refine ⟨le_of_lt ?_, by simpa using not_le.mp h⟩
    simpa using hlower

theorem qexp_mono {q1 q2 : ℚ} (h1 : 0 < q1) (h12 : q1 ≤ q2) : qexp q1 ≤ qexp q2 := by
  by_contra hcon
  push_neg at hcon
  have h2 : 0 < q2 := lt_of_lt_of_le h1 h12
  obtain ⟨hs1, _⟩ := qexp_spec q1 h1
  obtain ⟨_, hs2⟩ := qexp_spec q2 h2
  have hle : qexp q2 + 1 ≤ qexp q1 := hcon
  have : (2 : ℚ) ^ (qexp q2 + 1) ≤ (2 : ℚ) ^ qexp q1 :=
    zpow_le_zpow_right₀ one_le_two hle
  linarith

theorem flPos_eq_std (q : ℚ) :
    flPos q = (rne (q * (2 : ℚ) ^ (52 - qexp q)) : ℚ) * (2 : ℚ) ^ (qexp q - 52) := by
  simp only [flPos, qmul_eq, pow2z_eq]

theorem mantissa_bounds (q : ℚ) (hq : 0 < q) :
    (2 : ℚ) ^ (52 : ℤ) ≤ q * (2 : ℚ) ^ (52 - qexp q) ∧
      q * (2 : ℚ) ^ (52 - qexp q) < (2 : ℚ) ^ (53 : ℤ) := by
  obtain ⟨hl, hu⟩ := qexp_spec q hq
  have hsplit1 : (2 : ℚ) ^ (52 : ℤ) = (2 : ℚ) ^ qexp q * (2 : ℚ) ^ (52 - qexp q) := by
    rw [← zpow_add₀ two_ne_zeroQ]
    congr 1
    ring
  have hsplit2 : (2 : ℚ) ^ (qexp q + 1) * (2 : ℚ) ^ (52 - qexp q) = (2 : ℚ) ^ (53 : ℤ) := by
    rw [← zpow_add₀ two_ne_zeroQ]
    congr 1
    ring
  have h1 : (2 : ℚ) ^ qexp q * (2 : ℚ) ^ (52 - qexp q) ≤ q * (2 : ℚ) ^ (52 - qexp q) :=
    mul_le_mul_of_nonneg_right hl (by positivity)
  have h2 : q * (2 : ℚ) ^ (52 - qexp q) < (2 : ℚ) ^ (qexp q + 1) * (2 : ℚ) ^ (52 - qexp q) :=
    mul_lt_mul_of_pos_right hu (by positivity)
  constructor
  · linarith
  · linarith

theorem flPos_bounds (q : ℚ) (hq : 0 < q) :
    (2 : ℚ) ^ qexp q ≤ flPos q ∧ flPos q ≤ (2 : ℚ) ^ (qexp q + 1) := by
  obtain ⟨hm1, hm2⟩ := mantissa_bounds q hq
  set mu := q * (2 : ℚ) ^ (52 - qexp q) with hmu
  obtain ⟨hr1, hr2⟩ := rne_bounds mu
  have hm1n : (2 : ℚ) ^ (52 : ℕ) ≤ mu := by
    have hzz : (2 : ℚ) ^ (52 : ℕ) = (2 : ℚ) ^ (52 : ℤ) := by norm_num
    rw [hzz]
    exact hm1
  have hm2n : mu < (2 : ℚ) ^ (53 : ℕ) := by
    have hzz : (2 : ℚ) ^ (53 : ℕ) = (2 : ℚ) ^ (53 : ℤ) := by norm_num
    rw [hzz]
    exact hm2
  have hrl : ((2 ^ 52 : ℤ) : ℚ) ≤ (rne mu : ℚ) := by
    have hQ : ((2 ^ 52 - 1 : ℤ) : ℚ) < (rne mu : ℚ) := by
      push_cast
      linarith
    have hZ : (2 ^ 52 - 1 : ℤ) < rne mu := by exact_mod_cast hQ
    have hZ2 : (2 ^ 52 : ℤ) ≤ rne mu := by omega
    exact_mod_cast hZ2
  have hru : (rne mu : ℚ) ≤ ((2 ^ 53 : ℤ) : ℚ) := by
    have hQ : (rne mu : ℚ) < ((2 ^ 53 + 1 : ℤ) : ℚ) := by
      push_cast
      linarith
    have hZ : rne mu < 2 ^ 53 + 1 := by exact_mod_cast hQ
    have hZ2 : rne mu ≤ 2 ^ 53 := by omega
    exact_mod_cast hZ2
  rw [flPos_eq_std, ← hmu]
  have hsplit1 : (2 : ℚ) ^ qexp q = (2 : ℚ) ^ (52 : ℤ) * (2 : ℚ) ^ (qexp q - 52) := by
    rw [← zpow_add₀ two_ne_zeroQ]
    congr 1
    ring
  have hsplit2 : (2 : ℚ) ^ (53 : ℤ) * (2 : ℚ) ^ (qexp q - 52) = (2 : ℚ) ^ (qexp q + 1) := by
    rw [← zpow_add₀ two_ne_zeroQ]
    congr 1
    ring
  have h1 : ((2 ^ 52 : ℤ) : ℚ) * (2 : ℚ) ^ (qexp q - 52) ≤ (rne mu : ℚ) * (2 : ℚ) ^ (qexp q - 52) :=
    mul_le_mul_of_nonneg_right hrl (by positivity)
  have h2 : (rne mu : ℚ) * (2 : ℚ) ^ (qexp q - 52) ≤ ((2 ^ 53 : ℤ) : ℚ) * (2 : ℚ) ^ (qexp q - 52) :=
    mul_le_mul_of_nonneg_right hru (by positivity)
  have h52 : ((2 ^ 52 : ℤ) : ℚ) = (2 : ℚ) ^ (52 : ℤ) := by norm_num
  have h53 : ((2 ^ 53 : ℤ) : ℚ) = (2 : ℚ) ^ (53 : ℤ) := by norm_num
  rw [h52] at h1
  rw [h53] at h2
  constructor
  · linarith
  · linarith

theorem flPos_pos (q : ℚ) (hq : 0 < q) : 0 < flPos q :=
  lt_of_lt_of_le (by positivity) (flPos_bounds q hq).1

theorem flPos_err (q : ℚ) (hq : 0 < q) : |flPos q - q| ≤ q / 2 ^ 53 := by
  obtain ⟨hl, _⟩ := qexp_spec q hq
  set mu := q * (2 : ℚ) ^ (52 - qexp q) with hmu
  obtain ⟨hr1, hr2⟩ := rne_bounds mu
  have hqmu : mu * (2 : ℚ) ^ (qexp q - 52) = q := by
    rw [hmu, mul_assoc, ← zpow_add₀ two_ne_zeroQ]
    norm_num
  have heq : flPos q - q = ((rne mu : ℚ) - mu) * (2 : ℚ) ^ (qexp q - 52) := by
    rw [flPos_eq_std, ← hmu, sub_mul]
    rw [hqmu]
  rw [heq, abs_mul, abs_of_pos (show (0:ℚ) < (2 : ℚ) ^ (qexp q - 52) by positivity)]
  have habs : |(rne mu : ℚ) - mu| ≤ 1 / 2 := abs_le.mpr ⟨by linarith, by linarith⟩
  have hb1 : |(rne mu : ℚ) - mu| * (2 : ℚ) ^ (qexp q - 52) ≤
      (1 / 2) * (2 : ℚ) ^ (qexp q - 52) :=
    mul_le_mul_of_nonneg_right habs (by positivity)
  have hb2 : (1 / 2 : ℚ) * (2 : ℚ) ^ (qexp q - 52) = (2 : ℚ) ^ (qexp q - 53) := by
    rw [show (qexp q - 53) = (-1) + (qexp q - 52) by ring, zpow_add₀ two_ne_zeroQ]
    norm_num
  have hb3 : (2 : ℚ) ^ (qexp q - 53) ≤ q * (2 : ℚ) ^ (-53 : ℤ) := by
    rw [show (qexp q - 53) = qexp q + (-53) by ring, zpow_add₀ two_ne_zeroQ]
    exact mul_le_mul_of_nonneg_right hl (by positivity)
  have hb4 : q * (2 : ℚ) ^ (-53 : ℤ) = q / 2 ^ 53 := by
    rw [zpow_neg, div_eq_mul_inv]
    norm_num
  exact ((hb1.trans (le_of_eq hb2)).trans hb3).trans (le_of_eq hb4)

theorem flPos_mono {q1 q2 : ℚ} (h1 : 0 < q1) (h12 : q1 ≤ q2) : flPos q1 ≤ flPos q2 := by
  have h2 : 0 < q2 := lt_of_lt_of_le h1 h12
  rcases lt_or_eq_of_le (qexp_mono h1 h12) with hk | hk
  · calc flPos q1 ≤ (2 : ℚ) ^ (qexp q1 + 1) := (flPos_bounds q1 h1).2
      _ ≤ (2 : ℚ) ^ qexp q2 := zpow_le_zpow_right₀ one_le_two (by omega)
      _ ≤ flPos q2 := (flPos_bounds q2 h2).1
  · rw [flPos_eq_std, flPos_eq_std, ← hk]
    have hmu : q1 * (2 : ℚ) ^ (52 - qexp q1) ≤ q2 * (2 : ℚ) ^ (52 - qexp q1) :=
      mul_le_mul_of_nonneg_right h12 (by positivity)
    have := rne_mono hmu
    exact mul_le_mul_of_nonneg_right (by exact_mod_cast this) (by positivity)

theorem fl_zero : fl 0 = 0 := by simp [fl]

theorem fl_of_pos {q : ℚ} (hq : 0 < q) : fl q = flPos q := by
  rw [fl, if_neg hq.ne', if_neg (not_lt.mpr hq.le)]

theorem fl_pos {q : ℚ} (hq : 0 < q) : 0 < fl q := by
  rw [fl_of_pos hq]
  exact flPos_pos q hq

theorem fl_nonneg {q : ℚ} (hq : 0 ≤ q) : 0 ≤ fl q := by
  rcases eq_or_lt_of_le hq with h | h
  · rw [← h, fl_zero]
  · exact (fl_pos h).le

theorem fl_err {q : ℚ} (hq : 0 ≤ q) : |fl q - q| ≤ q / 2 ^ 53 := by
  rcases eq_or_lt_of_le hq with h | h
  · rw [← h, fl_zero]
    simp
  · rw [fl_of_pos h]
    exact flPos_err q h

theorem fl_mono : Monotone fl := by
  intro x y hxy
  rcases lt_trichotomy x 0 with hx | hx | hx
  · rcases lt_trichotomy y 0 with hy | hy | hy
    · rw [fl, if_neg hx.ne, if_pos hx, fl, if_neg hy.ne, if_pos hy]
      have : flPos (-y) ≤ flPos (-x) := flPos_mono (by linarith) (by linarith)
      linarith
    · rw [hy, fl_zero, fl, if_neg hx.ne, if_pos hx]
      have := flPos_pos (-x) (by linarith)
      linarith
    · have hfx : fl x < 0 := by
        rw [fl, if_neg hx.ne, if_pos hx]
        have := flPos_pos (-x) (by linarith)
        linarith
      exact le_of_lt (lt_of_lt_of_le hfx (fl_pos hy).le)
  · rw [hx, fl_zero]
    exact fl_nonneg (by linarith)
  · rw [fl_of_pos hx, fl_of_pos (lt_of_lt_of_le hx hxy)]
    exact flPos_mono hx hxy

theorem truncQ_eq_floor {q : ℚ} (h : 0 ≤ q) : truncQ q = ⌊q⌋ := by
  rw [truncQ, if_neg (not_lt.mpr h), qfloor_eq]

theorem truncQ_mono {x y : ℚ} (hxy : x ≤ y) : truncQ x ≤ truncQ y := by
  rw [truncQ, truncQ]
  simp only [qfloor_eq]
  split_ifs with hx hy hy
  · have : -y ≤ -x := by linarith
    have := Int.floor_le_floor this
    omega
  · have h1 : 0 ≤ ⌊y⌋ := Int.floor_nonneg.mpr (not_lt.mp hy)
    have h2 : 0 ≤ ⌊-x⌋ := Int.floor_nonneg.mpr (by linarith)
    omega
  · linarith
  · exact Int.floor_le_floor hxy

/-! ### Durations (Go `time` constants and the `timeago` source constants) -/

/-- Go `time.Second` in nanoseconds. -/
def Second : ℤ := 1000000000

/-- Go `time.Minute`. -/
def Minute : ℤ := 60 * Second

/-- Go `time.Hour`. -/
def Hour : ℤ := 60 * Minute

/-- `Day` constant of the source: `time.Hour * 24`. -/
def Day : ℤ := Hour * 24

/-- `Month` constant of the source: `Day * 30`. -/
def Month : ℤ := Day * 30

/-- `Year` constant of the source: `Day * 365`. -/
def Year : ℤ := Day * 365

/-- The source's `round`: `time.Duration(float64(d)/float64(step) + 0.5)`
when `roundCloser`, `time.Duration(float64(d)/float64(step))` otherwise.
Each binary64 operation is the correctly rounded (`fl`) exact operation;
the outer conversion truncates toward zero. -/
def round (d step : ℤ) (roundCloser : Bool) : ℤ :=
  if roundCloser then truncQ (fl (qadd (fl (qdiv (fl (d : ℚ)) (fl (step : ℚ)))) (Rat.divInt 1 2)))
  else truncQ (fl (qdiv (fl (d : ℚ)) (fl (step : ℚ))))

theorem round_true_eq (d step : ℤ) :
    round d step true = truncQ (fl (fl (fl (d : ℚ) / fl (step : ℚ)) + 1 / 2)) := by
  simp only [round, if_pos, qadd_eq, qdiv_eq, halfQ_eq]

theorem round_false_eq (d step : ℤ) :
    round d step false = truncQ (fl (fl (d : ℚ) / fl (step : ℚ))) := by
  simp only [round, Bool.false_eq_true, if_false, qdiv_eq]

theorem round_mono {d1 d2 step : ℤ} (hstep : 1 ≤ step) (h : d1 ≤ d2) (rc : Bool) :
    round d1 step rc ≤ round d2 step rc := by
  have hstepQ : (0 : ℚ) < (step : ℚ) := by exact_mod_cast lt_of_lt_of_le one_pos hstep
  have hfs : 0 < fl (step : ℚ) := fl_pos hstepQ
  have hfd : fl (d1 : ℚ) ≤ fl (d2 : ℚ) := fl_mono (by exact_mod_cast h)
  have hdiv : fl (d1 : ℚ) / fl (step : ℚ) ≤ fl (d2 : ℚ) / fl (step : ℚ) :=
    (div_le_div_iff_of_pos_right hfs).mpr hfd
  cases rc with
  | false =>
    rw [round_false_eq, round_false_eq]
    exact truncQ_mono (fl_mono hdiv)
  | true =>
    rw [round_true_eq, round_true_eq]
    exact truncQ_mono (fl_mono (by linarith [fl_mono hdiv]))

/-! ### Go standard-library string helpers (`time.Duration.String`, `strconv`) -/

/-- The ASCII digit character for `n < 10`. -/
def digitChar (n : ℕ) : Char := Char.ofNat (48 + n)

/-- Decimal digits of `n`, most significant first (Go's `fmtInt`); the fuel
argument only drives the recursion and is always sufficient at `n + 1`. -/
def natDigitsAux : ℕ → ℕ → List Char → List Char
  | 0, _, acc => acc
  | fuel + 1, n, acc =>
    if n < 10 then digitChar n :: acc
    else natDigitsAux fuel (n / 10) (digitChar (n % 10) :: acc)

/-- Go's `fmtInt`: decimal representation of a natural number. -/
def fmtInt (n : ℕ) : String := String.mk (natDigitsAux (n + 1) n [])

/-- The last `prec` decimal digits of `v`, most significant first. -/
def padDigits : ℕ → ℕ → List Char
  | 0, _ => []
  | prec + 1, v => padDigits prec (v / 10) ++ [digitChar (v % 10)]

def dropTrailingZeros (l : List Char) : List Char :=
  (l.reverse.dropWhile (fun c => c = '0')).reverse

/-- Go's `fmtFrac`: `prec` fractional digits of `v` with trailing zeros (and a
bare decimal point) omitted. -/
def fracStr (v : ℕ) (prec : ℕ) : String :=
  if dropTrailingZeros (padDigits prec v) = [] then ""
  else String.mk ('.' :: dropTrailingZeros (padDigits prec v))

/-- Go's `time.Duration.String`: "ns"/"µs"/"ms" below a second, otherwise
seconds with optional minutes and hours, fractional parts trimmed. -/
def goDurationString (d : ℤ) : String :=
  if d = 0 then "0s"
  else
    let u := d.natAbs
    let core :=
      if u < 1000000000 then
        if u < 1000 then fmtInt u ++ "ns"
        else if u < 1000000 then fmtInt (u / 1000) ++ fracStr u 3 ++ "µs"
        else fmtInt (u / 1000000) ++ fracStr u 6 ++ "ms"
      else
        let sec := u / 1000000000
        let sPart := fmtInt (sec % 60) ++ fracStr u 9 ++ "s"
        let mins := sec / 60
        if mins = 0 then sPart
        else
          let mPart := fmtInt (mins % 60) ++ "m" ++ sPart
          let hrs := mins / 60
          if hrs = 0 then mPart else fmtInt hrs ++ "h" ++ mPart
    if d < 0 then "-" ++ core else core

def isDigitChar (c : Char) : Bool := '0' ≤ c && c ≤ '9'

/-- `strconv.Atoi` on a string of decimal digits. -/
def parseDigits (l : List Char) : ℕ := l.foldl (fun acc c => 10 * acc + (c.toNat - 48)) 0

/-- The source's `durationNumber`: render the duration with
`time.Duration.String`, strip every non-digit byte (the `[^0-9]` regexp) and
parse the remainder with `strconv.Atoi`.  `none` models the `Atoi` error on an
empty digit string. -/
def durationNumber (d : ℤ) : Option ℤ :=
  if (goDurationString d).toList.filter isDigitChar = [] then none
  else some (parseDigits ((goDurationString d).toList.filter isDigitChar))

/-- Non-overlapping occurrences of `"%%"`, scanning left to right
(Go's `strings.Count(f, "%%")`). -/
def countPP : List Char → ℕ
  | '%' :: '%' :: rest => countPP rest + 1
  | _ :: rest => countPP rest
  | [] => 0

/-- The source's `nbParamInFormat`:
`strings.Count(f, "%") - 2*strings.Count(f, "%%")`. -/
def nbParamInFormat (f : String) : ℤ :=
  (f.toList.count '%' : ℤ) - 2 * countPP f.toList

/-- Decimal rendering of an integer (`fmt`'s `%d` verb). -/
def intDecimal (r : ℤ) : String :=
  if r < 0 then "-" ++ fmtInt r.natAbs else fmtInt r.natAbs

def sprintfDAux : List Char → Option ℤ → List Char
  | [], _ => []
  | '%' :: '%' :: rest, arg => '%' :: sprintfDAux rest arg
  | '%' :: 'd' :: rest, some r => (intDecimal r).toList ++ sprintfDAux rest none
  | c :: rest, arg => c :: sprintfDAux rest arg

/-- `fmt.Sprintf(layout, r)` restricted to the `%d` and `%%` verbs, the only
ones appearing in `timeago` layouts. -/
def sprintfD (layout : String) (r : ℤ) : String :=
  String.mk (sprintfDAux layout.toList (some r))

/-! ### The data model of the source -/

/-- go-i18n's `plural.Category`. -/
inductive Category where
  | invalid
  | zero
  | one
  | two
  | few
  | many
  | other

/-- The source's `FormatPeriod`. -/
structure FormatPeriod where
  D : ℤ
  One : String
  Few : String
  Many : String
  Other : String
deriving DecidableEq

/-- The source's `Config`. -/
structure Config where
  LocaleID : String
  PastPrefix : String
  PastSuffix : String
  FuturePrefix : String
  FutureSuffix : String
  Periods : List FormatPeriod
  Zero : String
  Max : ℤ
  DefaultLayout : String

/-- `next` of the loop body in `getTimeText`: the unit of the following
period, or the period's own unit at the end of the list. -/
def nextUnit (p : FormatPeriod) : List FormatPeriod → ℤ
  | [] => p.D
  | q :: _ => q.D

/-- The returning tail of the loop body of `getTimeText` (source lines
362-391): round, resolve the plural category of the rounded count through
`durationNumber` and the locale's rule `plur`, pick the layout
(`plural.Invalid` assigns none), and interpolate when the layout has a
parameter. -/
def renderReturn (plur : ℤ → Category) (p : FormatPeriod) (d : ℤ) (roundCloser : Bool) :
    String × ℤ :=
  if round d p.D roundCloser = 0 then ("", d)
  else
    let layout :=
      match plur ((durationNumber (round d p.D roundCloser)).getD 0) with
      | Category.one => p.One
      | Category.few => p.Few
      | Category.many => p.Many
      | Category.invalid => ""
      | _ => p.Other
    if nbParamInFormat layout = 0 then (layout, d - round d p.D roundCloser * p.D)
    else (sprintfD layout (round d p.D roundCloser), d - round d p.D roundCloser * p.D)

/-- The period loop of `getTimeText` (source lines 354-394): scan the
periods; where the bucket test `i+1 == len(cfg.Periods) || d < next` holds,
skip when the rounded count coincides with the rounded next unit, otherwise
return; past the last period fall back to `d.String()`. -/
def timeTextFrom (plur : ℤ → Category) (d : ℤ) (rc : Bool) : List FormatPeriod → String × ℤ
  | [] => (goDurationString d, 0)
  | p :: rest =>
    if rest = [] ∨ d < nextUnit p rest then
      if nextUnit p rest ≠ p.D ∧ round d p.D rc = round (nextUnit p rest) p.D rc then
        timeTextFrom plur d rc rest
      else renderReturn plur p d rc
    else timeTextFrom plur d rc rest

/-- The source's `Config.getTimeText`.  The go-i18n pluralisation lookup
`language.LanguageWithID(cfg.LocaleID).PluralCategory` is an external
dependency and enters as the parameter `plur`. -/
def Config.getTimeText (cfg : Config) (plur : ℤ → Category) (d : ℤ) (roundCloser : Bool) :
    String × ℤ :=
  match cfg.Periods with
  | [] => (cfg.Zero, 0)
  | p :: _ =>
    if d < p.D then (cfg.Zero, 0) else timeTextFrom plur d roundCloser cfg.Periods

/-- `int64` negation: exact everywhere except at the minimum value, where
`-d` wraps back to the minimum (the `d = -d` of source line 314 and the
`-d` of line 301). -/
def negInt64 (d : ℤ) : ℤ :=
  if d = -9223372036854775808 then -9223372036854775808 else -d

/-- Go's `time.Time.Sub`: the difference of the two instants, saturated to
the maximal (minimal) representable `time.Duration` on overflow. -/
def subSat (reference t : ℤ) : ℤ :=
  if 9223372036854775807 < reference - t then 9223372036854775807
  else if reference - t < -9223372036854775808 then -9223372036854775808
  else reference - t

/-- The source's `Config.FormatRelativeDuration`: classify the sign, take the
magnitude (`int64` negation, which wraps at the minimum value), format it and
wrap with the matching prefix/suffix pair (`strings.Join` with an empty
separator is plain concatenation). -/
def Config.FormatRelativeDuration (cfg : Config) (plur : ℤ → Category) (d : ℤ) : String :=
  if 0 ≤ d then
    cfg.PastPrefix ++ (cfg.getTimeText plur (if d < 0 then negInt64 d else d) true).1 ++
      cfg.PastSuffix
  else
    cfg.FuturePrefix ++ (cfg.getTimeText plur (if d < 0 then negInt64 d else d) true).1 ++
      cfg.FutureSuffix

/-- The source's `Config.FormatReference`.  The delta is `reference.Sub(t)`
(saturating) and the negative-side test `-d >= cfg.Max` uses `int64`
negation, which wraps at the minimum duration.  `time.Time.Format` is an
external collaborator and enters as the parameter `timeFormat`. -/
def Config.FormatReference (cfg : Config) (timeFormat : ℤ → String → String)
    (plur : ℤ → Category) (t reference : ℤ) : String :=
  if (0 ≤ subSat reference t ∧ cfg.Max ≤ subSat reference t) ∨
      (subSat reference t < 0 ∧ cfg.Max ≤ negInt64 (subSat reference t)) then
    timeFormat t cfg.DefaultLayout
  else cfg.FormatRelativeDuration plur (subSat reference t)

/-- The source's `WithMax`: copy the configuration, overriding `Max` and
`DefaultLayout`. -/
def WithMax (cfg : Config) (max : ℤ) (defaultLayout : String) : Config :=
  { cfg with Max := max, DefaultLayout := defaultLayout }

/-- The source's `NoMax`: `WithMax` with the maximal `int64` duration and the
`time.RFC3339` layout. -/
def NoMax (cfg : Config) : Config :=
  WithMax cfg 9223372036854775807 "2006-01-02T15:04:05Z07:00"

/-- The source's predefined `English` configuration. -/
def English : Config :=
  { LocaleID := "en"
    PastPrefix := ""
    PastSuffix := " ago"
    FuturePrefix := "in "
    FutureSuffix := ""
    Periods :=
      [⟨Second, "about a second", "", "", "%d seconds"⟩,
        ⟨Minute, "about a minute", "", "", "%d minutes"⟩,
        ⟨Hour, "about an hour", "", "", "%d hours"⟩,
        ⟨Day, "one day", "", "", "%d days"⟩,
        ⟨Month, "one month", "", "", "%d months"⟩,
        ⟨Year, "one year", "", "", "%d years"⟩]
    Zero := "about a second"
    Max := 73 * Hour
    DefaultLayout := "2006-01-02" }

/-- Modelled from the spec: the pluralisation rule the external go-i18n
library resolves for the `"en"` locale (the library is a dependency, not part
of this repository).  Per the specification's default rule, a count of 1 maps
to `one` and every other count to `other`. -/
def enPlural (n : ℤ) : Category := if n = 1 then Category.one else Category.other

/-- The index of the period at which the scan of `timeTextFrom` returns, if
any; derived from the same conditions as `timeTextFrom`. -/
def usedIndexFrom (d : ℤ) (rc : Bool) : List FormatPeriod → Option ℕ
  | [] => none
  | p :: rest =>
    if rest = [] ∨ d < nextUnit p rest then
      if nextUnit p rest ≠ p.D ∧ round d p.D rc = round (nextUnit p rest) p.D rc then
        (usedIndexFrom d rc rest).map (· + 1)
      else some 0
    else (usedIndexFrom d rc rest).map (· + 1)

/-- The first index passing the bucket test
`i+1 == len(cfg.Periods) || d < next` of `getTimeText`. -/
def bucketIndexFrom (d : ℤ) : List FormatPeriod → Option ℕ
  | [] => none
  | p :: rest =>
    if rest = [] ∨ d < nextUnit p rest then some 0
    else (bucketIndexFrom d rest).map (· + 1)

/-! ### Structural lemmas about the period scan -/

theorem usedIndexFrom_cons (d : ℤ) (rc : Bool) (p : FormatPeriod) (rest : List FormatPeriod) :
    usedIndexFrom d rc (p :: rest) =
      if rest = [] ∨ d < nextUnit p rest then
        if nextUnit p rest ≠ p.D ∧ round d p.D rc = round (nextUnit p rest) p.D rc then
          (usedIndexFrom d rc rest).map (· + 1)
        else some 0
      else (usedIndexFrom d rc rest).map (· + 1) := rfl

theorem timeTextFrom_cons (plur : ℤ → Category) (d : ℤ) (rc : Bool) (p : FormatPeriod)
    (rest : List FormatPeriod) :
    timeTextFrom plur d rc (p :: rest) =
      if rest = [] ∨ d < nextUnit p rest then
        if nextUnit p rest ≠ p.D ∧ round d p.D rc = round (nextUnit p rest) p.D rc then
          timeTextFrom plur d rc rest
        else renderReturn plur p d rc
      else timeTextFrom plur d rc rest := rfl

theorem bucketIndexFrom_cons (d : ℤ) (p : FormatPeriod) (rest : List FormatPeriod) :
    bucketIndexFrom d (p :: rest) =
      if rest = [] ∨ d < nextUnit p rest then some 0
      else (bucketIndexFrom d rest).map (· + 1) := rfl

theorem usedIndexFrom_total (d : ℤ) (rc : Bool) :
    ∀ ps : List FormatPeriod, ps ≠ [] → ∃ i, usedIndexFrom d rc ps = some i := by
  intro ps
  induction ps with
  | nil => intro h; exact absurd rfl h
  | cons p rest ih =>
    intro _
    cases rest with
    | nil =>
      exact ⟨0, by rw [usedIndexFrom_cons, if_pos (Or.inl rfl), if_neg (by simp [nextUnit])]⟩
    | cons q rest' =>
      obtain ⟨j, hj⟩ := ih (by simp)
      by_cases h1 : d < nextUnit p (q :: rest')
      · by_cases h2 : nextUnit p (q :: rest') ≠ p.D ∧
            round d p.D rc = round (nextUnit p (q :: rest')) p.D rc
        · exact ⟨j + 1, by rw [usedIndexFrom_cons, if_pos (Or.inr h1), if_pos h2, hj]; rfl⟩
        · exact ⟨0, by rw [usedIndexFrom_cons, if_pos (Or.inr h1), if_neg h2]⟩
      · refine ⟨j + 1, ?_⟩
        rw [usedIndexFrom_cons, if_neg (by simp [h1]), hj]
        rfl

theorem timeTextFrom_renders (plur : ℤ → Category) (d : ℤ) (rc : Bool) :
    ∀ ps : List FormatPeriod, ps ≠ [] →
    ∃ i, ∃ h : i < ps.length, usedIndexFrom d rc ps = some i ∧
      timeTextFrom plur d rc ps = renderReturn plur (ps.get ⟨i, h⟩) d rc := by
  intro ps
  induction ps with
  | nil => intro h; exact absurd rfl h
  | cons p rest ih =>
    intro _
    cases rest with
    | nil =>
      refine ⟨0, by simp, ?_, ?_⟩
      · rw [usedIndexFrom_cons, if_pos (Or.inl rfl), if_neg (by simp [nextUnit])]
      · rw [timeTextFrom_cons, if_pos (Or.inl rfl), if_neg (by simp [nextUnit])]
        rfl
    | cons q rest' =>
      obtain ⟨j, hjlen, hju, hjt⟩ := ih (by simp)
      by_cases h1 : d < nextUnit p (q :: rest')
      · by_cases h2 : nextUnit p (q :: rest') ≠ p.D ∧
            round d p.D rc = round (nextUnit p (q :: rest')) p.D rc
        · refine ⟨j + 1, by simpa using Nat.succ_lt_succ hjlen, ?_, ?_⟩
          · rw [usedIndexFrom_cons, if_pos (Or.inr h1), if_pos h2, hju]
            rfl
          · rw [timeTextFrom_cons, if_pos (Or.inr h1), if_pos h2]
            exact hjt
        · refine ⟨0, by simp, ?_, ?_⟩
          · rw [usedIndexFrom_cons, if_pos (Or.inr h1), if_neg h2]
          · rw [timeTextFrom_cons, if_pos (Or.inr h1), if_neg h2]
            rfl
      · refine ⟨j + 1, by simpa using Nat.succ_lt_succ hjlen, ?_, ?_⟩
        · rw [usedIndexFrom_cons, if_neg (by simp [h1]), hju]
          rfl
        · rw [timeTextFrom_cons, if_neg (by simp [h1])]
          exact hjt

theorem usedIndexFrom_mono (rc : Bool) :
    ∀ (ps : List FormatPeriod), ps ≠ [] → (∀ p ∈ ps, 1 ≤ p.D) →
    ps.Chain' (fun a b => a.D < b.D) → ∀ d1 d2 : ℤ, d1 ≤ d2 →
    ∃ i1 i2, usedIndexFrom d1 rc ps = some i1 ∧ usedIndexFrom d2 rc ps = some i2 ∧ i1 ≤ i2 := by
  intro ps
  induction ps with
  | nil => intro h; exact absurd rfl h
  | cons p rest ih =>
    intro _ hpos hchain d1 d2 h12
    cases rest with
    | nil =>
      refine ⟨0, 0, ?_, ?_, le_rfl⟩ <;>
        rw [usedIndexFrom_cons, if_pos (Or.inl rfl), if_neg (by simp [nextUnit])]
    | cons q rest' =>
      have hpq : p.D < q.D := (List.chain'_cons.mp hchain).1
      have hchain' : (q :: rest').Chain' (fun a b => a.D < b.D) := (List.chain'_cons.mp hchain).2
      have hpos' : ∀ r ∈ q :: rest', 1 ≤ r.D := fun r hr => hpos r (List.mem_cons_of_mem p hr)
      have hpD : 1 ≤ p.D := hpos p (List.mem_cons_self p _)
      have hne' : (q :: rest') ≠ [] := by simp
      have hqne : nextUnit p (q :: rest') ≠ p.D := hpq.ne'
      by_cases hb1 : d1 < q.D
      · by_cases hs1 : round d1 p.D rc = round q.D p.D rc
        · by_cases hb2 : d2 < q.D
          · have hs2 : round d2 p.D rc = round q.D p.D rc := by
              have hA := round_mono hpD h12 rc
              have hB := round_mono hpD (le_of_lt hb2) rc
              omega
            obtain ⟨i1, i2, e1, e2, hle⟩ := ih hne' hpos' hchain' d1 d2 h12
            refine ⟨i1 + 1, i2 + 1, ?_, ?_, by omega⟩
            · rw [usedIndexFrom_cons]
              simp only [nextUnit]
              rw [if_pos (Or.inr hb1), if_pos ⟨hpq.ne', hs1⟩, e1]
              rfl
            · rw [usedIndexFrom_cons]
              simp only [nextUnit]
              rw [if_pos (Or.inr hb2), if_pos ⟨hpq.ne', hs2⟩, e2]
              rfl
          · obtain ⟨i1, i2, e1, e2, hle⟩ := ih hne' hpos' hchain' d1 d2 h12
            refine ⟨i1 + 1, i2 + 1, ?_, ?_, by omega⟩
            · rw [usedIndexFrom_cons]
              simp only [nextUnit]
              rw [if_pos (Or.inr hb1), if_pos ⟨hpq.ne', hs1⟩, e1]
              rfl
            · rw [usedIndexFrom_cons]
              simp only [nextUnit]
              rw [if_neg (by simp [hb2]), e2]
              rfl
        · have hret1 : usedIndexFrom d1 rc (p :: q :: rest') = some 0 := by
            rw [usedIndexFrom_cons]
            simp only [nextUnit]
            rw [if_pos (Or.inr hb1), if_neg (by
              intro hcon
              exact hs1 hcon.2)]
          by_cases hb2 : d2 < q.D
          · by_cases hs2 : round d2 p.D rc = round q.D p.D rc
            · obtain ⟨i2, e2⟩ := usedIndexFrom_total d2 rc (q :: rest') hne'
              refine ⟨0, i2 + 1, hret1, ?_, by omega⟩
              rw [usedIndexFrom_cons]
              simp only [nextUnit]
              rw [if_pos (Or.inr hb2), if_pos ⟨hpq.ne', hs2⟩, e2]
              rfl
            · refine ⟨0, 0, hret1, ?_, le_rfl⟩
              rw [usedIndexFrom_cons]
              simp only [nextUnit]
              rw [if_pos (Or.inr hb2), if_neg (by
                intro hcon
                exact hs2 hcon.2)]
          · obtain ⟨i2, e2⟩ := usedIndexFrom_total d2 rc (q :: rest') hne'
            refine ⟨0, i2 + 1, hret1, ?_, by omega⟩
            rw [usedIndexFrom_cons]
            simp only [nextUnit]
            rw [if_neg (by simp [hb2]), e2]
            rfl
      · have hb2 : ¬ d2 < q.D := by omega
        obtain ⟨i1, i2, e1, e2, hle⟩ := ih hne' hpos' hchain' d1 d2 h12
        refine ⟨i1 + 1, i2 + 1, ?_, ?_, by omega⟩
        · rw [usedIndexFrom_cons]
          simp only [nextUnit]
          rw [if_neg (by simp [hb1]), e1]
          rfl
        · rw [usedIndexFrom_cons]
          simp only [nextUnit]
          rw [if_neg (by simp [hb2]), e2]
          rfl

theorem bucketIndexFrom_unit :
    ∀ (ps : List FormatPeriod), ps.Chain' (fun a b => a.D < b.D) →
    ∀ i (h : i < ps.length), bucketIndexFrom ((ps.get ⟨i, h⟩).D) ps = some i := by
  intro ps
  induction ps with
  | nil => intro _ i h; simp at h
  | cons p rest ih =>
    intro hchain i h
    cases i with
    | zero =>
      cases rest with
      | nil => rw [bucketIndexFrom_cons, if_pos (Or.inl rfl)]
      | cons q rest' =>
        have hpq : p.D < q.D := (List.chain'_cons.mp hchain).1
        exact bucketIndexFrom_cons _ _ _ ▸ if_pos (Or.inr hpq) ▸ rfl
    | succ j =>
      cases rest with
      | nil => simp at h
      | cons q rest' =>
        have hj : j < (q :: rest').length := by simpa using h
        have hchain' : (q :: rest').Chain' (fun a b => a.D < b.D) := (List.chain'_cons.mp hchain).2
        have hpair : (q :: rest').Pairwise (fun a b => a.D < b.D) := by
          haveI : IsTrans FormatPeriod (fun a b => a.D < b.D) :=
            ⟨fun _ _ _ hab hbc => lt_trans hab hbc⟩
          exact List.chain'_iff_pairwise.mp hchain'
        have hgey : q.D ≤ ((q :: rest').get ⟨j, hj⟩).D := by
          cases j with
          | zero => simp
          | succ j' =>
            have := List.pairwise_iff_get.mp hpair ⟨0, by omega⟩ ⟨j' + 1, hj⟩
              (by simp [Fin.lt_def])
            simpa using this.le
        show bucketIndexFrom ((q :: rest').get ⟨j, hj⟩).D (p :: q :: rest') = some (j + 1)
        rw [bucketIndexFrom_cons]
        simp only [nextUnit]
        rw [if_neg (not_or.mpr ⟨by simp, not_lt.mpr hgey⟩), ih hchain' j hj]
        rfl


/-! ### Exact round-half-up and the accuracy of the float computation -/

/-- Round-half-up in exact rational arithmetic: `⌊d/step + 1/2⌋`. -/
def exactRound (d step : ℤ) : ℤ :=
  qfloor (qadd (qdiv ((d : ℚ)) ((step : ℚ))) (Rat.divInt 1 2))

theorem exactRound_eq (d step : ℤ) : exactRound d step = ⌊(d : ℚ) / step + 1 / 2⌋ := by
  simp only [exactRound, qadd_eq, qdiv_eq, halfQ_eq, qfloor_eq]

theorem abs_floor_sub_le_one {x y : ℚ} (h : |x - y| ≤ 1) : |⌊x⌋ - ⌊y⌋| ≤ 1 := by
  obtain ⟨h1, h2⟩ := abs_le.mp h
  have h3 : ⌊x⌋ ≤ ⌊y + 1⌋ := Int.floor_le_floor (by linarith)
  have h4 : ⌊y⌋ ≤ ⌊x + 1⌋ := Int.floor_le_floor (by linarith)
  rw [Int.floor_add_one] at h3 h4
  rw [abs_le]
  omega

theorem roundTrue_close (d step : ℤ) (hd : 1 ≤ d) (hstep : 1 ≤ step)
    (hfl : fl (step : ℚ) = (step : ℚ)) (hbound : (d : ℚ) ≤ 2 ^ 50 * (step : ℚ)) :
    |round d step true - exactRound d step| ≤ 1 := by
  have hdQ : (0 : ℚ) < (d : ℚ) := by exact_mod_cast (by omega : (0 : ℤ) < d)
  have hsQ : (0 : ℚ) < (step : ℚ) := by exact_mod_cast (by omega : (0 : ℤ) < step)
  set q : ℚ := (d : ℚ) / (step : ℚ) with hq_def
  have hq_pos : 0 < q := div_pos hdQ hsQ
  have hq_le : q ≤ 2 ^ 50 := by
    rw [hq_def, div_le_iff₀ hsQ]
    linarith
  have hx0 := fl_err (le_of_lt hdQ)
  have hx0_pos : 0 < fl ((d : ℚ)) := fl_pos hdQ
  set qt : ℚ := fl ((d : ℚ)) / (step : ℚ) with hqt_def
  have hqt_pos : 0 < qt := div_pos hx0_pos hsQ
  have hqt_near : |qt - q| ≤ q / 2 ^ 53 := by
    have hsub : qt - q = (fl ((d : ℚ)) - (d : ℚ)) / (step : ℚ) := by
      rw [hqt_def, hq_def]
      ring
    have hscale : q / 2 ^ 53 = ((d : ℚ) / 2 ^ 53) / (step : ℚ) := by
      rw [hq_def]
      ring
    rw [hsub, abs_div, abs_of_pos hsQ, hscale]
    exact (div_le_div_iff_of_pos_right hsQ).mpr hx0
  obtain ⟨hqta, hqtb⟩ := abs_le.mp hqt_near
  have hx1 := fl_err (le_of_lt hqt_pos)
  obtain ⟨hx1a, hx1b⟩ := abs_le.mp hx1
  have hx1_pos : 0 < fl qt := fl_pos hqt_pos
  have hx2_pre : (0 : ℚ) ≤ fl qt + 1 / 2 := by linarith
  have hx2 := fl_err hx2_pre
  obtain ⟨hx2a, hx2b⟩ := abs_le.mp hx2
  have key : |fl (fl qt + 1 / 2) - (q + 1 / 2)| ≤ 1 := by
    rw [abs_le]
    constructor <;> linarith
  have hA : round d step true = ⌊fl (fl qt + 1 / 2)⌋ := by
    rw [round_true_eq, hfl, ← hqt_def]
    exact truncQ_eq_floor (fl_nonneg hx2_pre)
  have hB : exactRound d step = ⌊q + 1 / 2⌋ := by
    rw [exactRound_eq, hq_def]
  rw [hA, hB]
  exact abs_floor_sub_le_one key


/-! ### Invalid plural category gives an empty layout -/

theorem renderReturn_invalid (plur : ℤ → Category) (p : FormatPeriod) (d : ℤ) (rc : Bool)
    (h : ∀ n, plur n = Category.invalid) : (renderReturn plur p d rc).1 = "" := by
  rw [renderReturn]
  split_ifs with h0
  · rfl
  · rw [h]
    rfl

theorem englishPeriods_chain : English.Periods.Chain' (fun a b => a.D < b.D) := by
  simp only [English]
  simp only [List.chain'_cons, List.chain'_singleton, and_true]
  refine ⟨?_, ?_, ?_, ?_, ?_⟩ <;> decide

/-! ### The claims -/

/-- C1: once a period is selected by the bucket test and is not the last
period, a rounded count equal to the rounded next unit makes the scan skip
the period and continue with the next one; concretely, with the English
periods and round-half-up, 59 minutes 30 seconds formats as
"about an hour ago" and one nanosecond less as "59 minutes ago". -/
theorem c1_carry_forward_tie_break :
    (∀ (plur : ℤ → Category) (d : ℤ) (rc : Bool) (p q : FormatPeriod)
        (rest : List FormatPeriod),
      d < q.D → q.D ≠ p.D → round d p.D rc = round q.D p.D rc →
      timeTextFrom plur d rc (p :: q :: rest) = timeTextFrom plur d rc (q :: rest)) ∧
    English.FormatRelativeDuration enPlural 3570000000000 = "about an hour ago" ∧
    English.FormatRelativeDuration enPlural 3569999999999 = "59 minutes ago" := by
  refine ⟨?_, by decide, by decide⟩
  intro plur d rc p q rest h1 h2 h3
  rw [timeTextFrom_cons]
  simp only [nextUnit]
  rw [if_pos (Or.inr h1), if_pos ⟨h2, h3⟩]

theorem c1_carry_forward_tie_break_witness :
    timeTextFrom enPlural 3570000000000 true
        [⟨Minute, "about a minute", "", "", "%d minutes"⟩,
          ⟨Hour, "about an hour", "", "", "%d hours"⟩] =
      timeTextFrom enPlural 3570000000000 true [⟨Hour, "about an hour", "", "", "%d hours"⟩] :=
  c1_carry_forward_tie_break.1 enPlural 3570000000000 true
    ⟨Minute, "about a minute", "", "", "%d minutes"⟩
    ⟨Hour, "about an hour", "", "", "%d hours"⟩ [] (by decide) (by decide) (by decide)

/-- C2: the claimed cutoff — any delta of magnitude at least `cfg.Max` is
formatted with `DefaultLayout` — fails at delta `-2^63`: the delta is
representable (`reference.Sub(t)` returns it exactly), its magnitude far
exceeds `English.Max`, yet `int64` negation wraps in the guard
`-d >= cfg.Max`, so the fuzzy branch runs and returns `"in about a second"`
instead of the `DefaultLayout` rendering of `t`. -/
theorem c2_max_cutoff_counterexample :
    English.Max ≤ |(0 : ℤ) - 9223372036854775808| ∧
      English.FormatReference (fun _ layout => layout) enPlural 9223372036854775808 0 =
        "in about a second" ∧
      (fun (_ : ℤ) (layout : String) => layout) 9223372036854775808 English.DefaultLayout =
        "2006-01-02" ∧
      ("in about a second" : String) ≠ "2006-01-02" :=
  ⟨by decide, by decide, rfl, by decide⟩

/-- C2 (amended): for every delta strictly above the minimal `int64`
duration — every delta the wrapping negation treats exactly — and every
configuration whose `Max` is a representable duration, a delta of magnitude
at least `cfg.Max` makes `FormatReference` format `t` with `DefaultLayout`
through the external date formatter, bypassing the fuzzy pipeline (the
comparison is `≥`, so a delta exactly equal to `Max` is included; deltas
above the maximal `int64` duration saturate and still take this branch). -/
theorem c2_max_duration_cutoff_amended :
    ∀ (timeFormat : ℤ → String → String) (plur : ℤ → Category) (cfg : Config)
      (t reference : ℤ), cfg.Max ≤ 9223372036854775807 →
      -9223372036854775808 < reference - t → cfg.Max ≤ |reference - t| →
      cfg.FormatReference timeFormat plur t reference = timeFormat t cfg.DefaultLayout := by
  intro tf plur cfg t reference hrep hlow h
  rw [Config.FormatReference]
  rcases le_or_lt 0 (reference - t) with hd | hd
  · rw [abs_of_nonneg hd] at h
    rcases le_or_lt (reference - t) 9223372036854775807 with hhi | hhi
    · have hs : subSat reference t = reference - t := by
        rw [subSat, if_neg (not_lt.mpr hhi), if_neg (by omega)]
      rw [hs, if_pos (Or.inl ⟨hd, h⟩)]
    · have hs : subSat reference t = 9223372036854775807 := by
        rw [subSat, if_pos hhi]
      rw [hs, if_pos (Or.inl ⟨by omega, hrep⟩)]
  · rw [abs_of_neg hd] at h
    have hs : subSat reference t = reference - t := by
      rw [subSat, if_neg (by omega), if_neg (not_lt.mpr (le_of_lt hlow))]
    have hn : negInt64 (reference - t) = -(reference - t) := by
      rw [negInt64, if_neg (by omega)]
    rw [hs, if_pos (Or.inr ⟨hd, by rw [hn]; exact h⟩)]

theorem c2_max_duration_cutoff_amended_witness :
    English.Max ≤ 9223372036854775807 ∧
      -9223372036854775808 < (262800000000000 : ℤ) - 0 ∧
      English.Max ≤ |(262800000000000 : ℤ) - 0| ∧
      English.FormatReference (fun _ layout => layout) enPlural 0 262800000000000 =
        "2006-01-02" :=
  ⟨by decide, by decide, by decide,
    c2_max_duration_cutoff_amended (fun _ layout => layout) enPlural English 0 262800000000000
      (by decide) (by decide) (by decide)⟩

/-- C3: a non-negative signed delta takes the past branch, wrapping the
phrase as `PastPrefix ++ phrase ++ PastSuffix` by plain concatenation, a
negative delta the future branch on the `int64` magnitude `negInt64 d`,
which coincides with the mathematical `-d` above the minimal `int64`
duration; with `t = reference` and a configuration with positive `Max`
(and the data-model invariant of positive period units) `FormatReference`
returns the zero phrase wrapped in the past pair. -/
theorem c3_sign_handling :
    (∀ (plur : ℤ → Category) (cfg : Config) (d : ℤ), 0 ≤ d →
      cfg.FormatRelativeDuration plur d =
        cfg.PastPrefix ++ (cfg.getTimeText plur d true).1 ++ cfg.PastSuffix) ∧
    (∀ (plur : ℤ → Category) (cfg : Config) (d : ℤ), d < 0 →
      cfg.FormatRelativeDuration plur d =
        cfg.FuturePrefix ++ (cfg.getTimeText plur (negInt64 d) true).1 ++ cfg.FutureSuffix) ∧
    (∀ d : ℤ, -9223372036854775808 < d → negInt64 d = -d) ∧
    (∀ (timeFormat : ℤ → String → String) (plur : ℤ → Category) (cfg : Config) (t : ℤ),
      0 < cfg.Max → (∀ p ∈ cfg.Periods, 0 < p.D) →
      cfg.FormatReference timeFormat plur t t =
        cfg.PastPrefix ++ cfg.Zero ++ cfg.PastSuffix) := by
  refine ⟨?_, ?_, ?_, ?_⟩
  · intro plur cfg d h
    rw [Config.FormatRelativeDuration, if_pos h, if_neg (not_lt.mpr h)]
  · intro plur cfg d h
    rw [Config.FormatRelativeDuration, if_neg (not_le.mpr h), if_pos h]
  · intro d hd
    rw [negInt64, if_neg (by omega)]
  · intro tf plur cfg t hmax hz
    rw [Config.FormatReference]
    have hs : subSat t t = 0 := by
      rw [subSat, sub_self]
      norm_num
    rw [hs]
    rw [if_neg (by
      rintro (⟨_, h2⟩ | ⟨h1, _⟩)
      · omega
      · omega)]
    rw [Config.FormatRelativeDuration, if_pos le_rfl, if_neg (lt_irrefl 0)]
    have hzero : (cfg.getTimeText plur 0 true).1 = cfg.Zero := by
      rcases hps : cfg.Periods with _ | ⟨p, rest⟩
      · simp [Config.getTimeText, hps]
      · have hp : 0 < p.D := hz p (by rw [hps]; exact List.mem_cons_self p rest)
        simp [Config.getTimeText, hps, hp]
    rw [hzero]

theorem c3_sign_handling_witness :
    English.FormatRelativeDuration enPlural 5000000000 =
        English.PastPrefix ++ (English.getTimeText enPlural 5000000000 true).1 ++
          English.PastSuffix ∧
      English.FormatRelativeDuration enPlural (-5000000000) =
        English.FuturePrefix ++
          (English.getTimeText enPlural (negInt64 (-5000000000)) true).1 ++
          English.FutureSuffix ∧
      negInt64 (-5000000000) = 5000000000 ∧
      English.FormatReference (fun _ layout => layout) enPlural 7 7 =
        English.PastPrefix ++ English.Zero ++ English.PastSuffix :=
  ⟨c3_sign_handling.1 enPlural English 5000000000 (by decide),
    c3_sign_handling.2.1 enPlural English (-5000000000) (by decide),
    (c3_sign_handling.2.2.1 (-5000000000) (by decide)).trans (by decide),
    c3_sign_handling.2.2.2 (fun _ layout => layout) enPlural English 7 (by decide) (by decide)⟩

/-- C4: with strictly increasing periods, the bucket test
`i+1 == len || d < next` (strict comparison) first succeeds, for a duration
equal to some period's unit, exactly at that period's own index — a duration
equal to a unit belongs to that period's bucket, not the previous one. -/
theorem c4_strict_bucket_boundary :
    ∀ (ps : List FormatPeriod), ps.Chain' (fun a b => a.D < b.D) →
      ∀ i (h : i < ps.length), bucketIndexFrom ((ps.get ⟨i, h⟩).D) ps = some i :=
  bucketIndexFrom_unit

theorem c4_strict_bucket_boundary_witness :
    bucketIndexFrom Minute English.Periods = some 1 :=
  c4_strict_bucket_boundary English.Periods englishPeriods_chain 1 (by decide)

/-- C5 (counterexample): with the English configuration, a duration of two
seconds and a pluralisation resolver that yields the invalid category, the
formatter produces the empty phrase — not the Other template's rendering
"2 seconds" as the claim states. -/
theorem c5_invalid_plural_counterexample :
    (English.getTimeText (fun _ => Category.invalid) 2000000000 true).1 = "" ∧
      sprintfD "%d seconds" (round 2000000000 Second true) = "2 seconds" ∧
      ("" : String) ≠ "2 seconds" :=
  ⟨by decide, by decide, by decide⟩

/-- C5 (amended): when the plural category resolves to the invalid category
the formatter assigns no layout and returns the empty phrase (or the zero
phrase when the scan never starts); it neither crashes nor propagates an
error, but it does not select the period's Other template. -/
theorem c5_invalid_plural_amended :
    ∀ (plur : ℤ → Category) (cfg : Config) (d : ℤ) (rc : Bool),
      (∀ n, plur n = Category.invalid) →
      (cfg.getTimeText plur d rc).1 = cfg.Zero ∨ (cfg.getTimeText plur d rc).1 = "" := by
  intro plur cfg d rc hplur
  rcases hps : cfg.Periods with _ | ⟨p, rest⟩
  · left
    simp [Config.getTimeText, hps]
  · by_cases hd : d < p.D
    · left
      simp [Config.getTimeText, hps, hd]
    · right
      obtain ⟨i, hlen, _, heq⟩ := timeTextFrom_renders plur d rc (p :: rest) (by simp)
      have hg : cfg.getTimeText plur d rc = timeTextFrom plur d rc (p :: rest) := by
        simp only [Config.getTimeText, hps]
        rw [if_neg hd]
      rw [hg, heq]
      exact renderReturn_invalid plur _ d rc hplur

theorem c5_invalid_plural_amended_witness :
    (English.getTimeText (fun _ => Category.invalid) 2000000000 true).1 = English.Zero ∨
      (English.getTimeText (fun _ => Category.invalid) 2000000000 true).1 = "" :=
  c5_invalid_plural_amended (fun _ => Category.invalid) English 2000000000 true (fun _ => rfl)

/-- C6: for a configuration with strictly increasing positive periods, the
index of the period at which the scan returns — the period whose template
`FormatRelativeDuration` uses, as the second conjunct states — is
non-decreasing in the duration magnitude. -/
theorem c6_boundary_monotonicity :
    (∀ (rc : Bool) (ps : List FormatPeriod), ps ≠ [] → (∀ p ∈ ps, 1 ≤ p.D) →
      ps.Chain' (fun a b => a.D < b.D) → ∀ d1 d2 : ℤ, d1 ≤ d2 →
      ∃ i1 i2, usedIndexFrom d1 rc ps = some i1 ∧ usedIndexFrom d2 rc ps = some i2 ∧
        i1 ≤ i2) ∧
    (∀ (plur : ℤ → Category) (cfg : Config) (d : ℤ) (rc : Bool) (p : FormatPeriod)
        (rest : List FormatPeriod), cfg.Periods = p :: rest → ¬ d < p.D →
      ∃ i, ∃ h : i < cfg.Periods.length, usedIndexFrom d rc cfg.Periods = some i ∧
        cfg.getTimeText plur d rc = renderReturn plur (cfg.Periods.get ⟨i, h⟩) d rc) := by
  refine ⟨fun rc ps hne hpos hchain d1 d2 h12 =>
    usedIndexFrom_mono rc ps hne hpos hchain d1 d2 h12, ?_⟩
  intro plur cfg d rc p rest hps hd
  obtain ⟨i, hlen, hu, ht⟩ := timeTextFrom_renders plur d rc cfg.Periods (by rw [hps]; simp)
  refine ⟨i, hlen, hu, ?_⟩
  have hg : cfg.getTimeText plur d rc = timeTextFrom plur d rc cfg.Periods := by
    simp only [Config.getTimeText, hps]
    rw [if_neg hd]
  rw [hg, ht]

theorem c6_boundary_monotonicity_witness :
    ∃ i1 i2, usedIndexFrom 60000000000 true English.Periods = some i1 ∧
      usedIndexFrom 3570000000000 true English.Periods = some i2 ∧ i1 ≤ i2 :=
  c6_boundary_monotonicity.1 true English.Periods (by decide) (by decide)
    englishPeriods_chain 60000000000 3570000000000 (by decide)

/-- C7 (counterexample): at `d` = 9999999499999999 ns and the Second unit the
float64 computation yields 10000000 while exact round-half-up
`⌊d/step + 1/2⌋` yields 9999999 — the two disagree, refuting exactness. -/
theorem c7_float_rounding_counterexample :
    round 9999999499999999 Second true = 10000000 ∧
      exactRound 9999999499999999 Second = 9999999 ∧ (10000000 : ℤ) ≠ 9999999 :=
  ⟨by decide, by decide, by decide⟩

/-- C7 (amended): for every representable non-negative duration and every
fixed bucket unit, the float64 computation stays within one of the exact
round-half-up value (and by the counterexample the distance 1 is attained). -/
theorem c7_float_rounding_amended :
    ∀ d step : ℤ, 0 ≤ d → d < 2 ^ 63 →
      step = Second ∨ step = Minute ∨ step = Hour ∨ step = Day ∨ step = Month ∨
        step = Year →
      |round d step true - exactRound d step| ≤ 1 := by
  intro d step hd0 hdlt hstep
  rcases eq_or_lt_of_le hd0 with h0 | h0
  · rcases hstep with h | h | h | h | h | h <;> subst h <;> rw [← h0] <;> decide
  · have hd1 : (1 : ℤ) ≤ d := h0
    have hdQ : (d : ℚ) < 2 ^ 63 := by exact_mod_cast hdlt
    have hnum : (2 : ℚ) ^ 63 ≤ 2 ^ 50 * 1000000000 := by norm_num
    rcases hstep with h | h | h | h | h | h <;> subst h <;>
      refine roundTrue_close _ _ hd1 (by decide) (by decide) ?_ <;>
      · simp only [Second, Minute, Hour, Day, Month, Year]
        push_cast
        linarith

theorem c7_float_rounding_amended_witness :
    (0 : ℤ) ≤ 123456789123 ∧ (123456789123 : ℤ) < 2 ^ 63 ∧
      |round 123456789123 Minute true - exactRound 123456789123 Minute| ≤ 1 :=
  ⟨by decide, by decide,
    c7_float_rounding_amended 123456789123 Minute (by decide) (by decide)
      (Or.inr (Or.inl rfl))⟩

/-- C8: `WithMax` returns a configuration with the given `Max` and
`DefaultLayout` while every other field equals the base configuration's; the
base itself is unchanged by construction, since the embedding (like Go's
pass-by-value `Config`) only ever builds a new value. -/
theorem c8_withMax_frame :
    ∀ (cfg : Config) (max : ℤ) (layout : String),
      (WithMax cfg max layout).Max = max ∧
      (WithMax cfg max layout).DefaultLayout = layout ∧
      (WithMax cfg max layout).LocaleID = cfg.LocaleID ∧
      (WithMax cfg max layout).PastPrefix = cfg.PastPrefix ∧
      (WithMax cfg max layout).PastSuffix = cfg.PastSuffix ∧
      (WithMax cfg max layout).FuturePrefix = cfg.FuturePrefix ∧
      (WithMax cfg max layout).FutureSuffix = cfg.FutureSuffix ∧
      (WithMax cfg max layout).Periods = cfg.Periods ∧
      (WithMax cfg max layout).Zero = cfg.Zero :=
  fun _ _ _ => ⟨rfl, rfl, rfl, rfl, rfl, rfl, rfl, rfl, rfl⟩

/-- C9 (counterexample): 1234 is a count of 1000 or more whose
`durationNumber` digits (via the string "1.234µs") equal the count itself,
refuting the claim that the extracted digits never equal such counts. -/
theorem c9_digits_counterexample :
    (1000 : ℤ) ≤ 1234 ∧ durationNumber 1234 = some 1234 ∧
      goDurationString 1234 = "1.234µs" :=
  ⟨by decide, by decide, by decide⟩

/-- C9 (amended): for counts 0 ≤ n ≤ 999 the integer handed to the
pluralisation rule equals the count; for counts of 1000 or more the
conversion goes through `time.Duration.String` and the extracted digits may
differ from the count (e.g. 1500 renders "1.5µs", giving 15). -/
theorem c9_duration_number_amended :
    (∀ n : ℤ, 0 ≤ n → n ≤ 999 → durationNumber n = some n) ∧
      durationNumber 1500 = some 15 ∧ goDurationString 1500 = "1.5µs" ∧
      (15 : ℤ) ≠ 1500 := by
  refine ⟨?_, by decide, by decide, by decide⟩
  have hball : ∀ m : ℕ, m < 1000 → durationNumber (m : ℤ) = some (m : ℤ) := by decide
  intro n h0 h1
  have hn : ((n.toNat : ℕ) : ℤ) = n := Int.toNat_of_nonneg h0
  rw [← hn]
  exact hball n.toNat (by omega)

theorem c9_duration_number_amended_witness :
    (0 : ℤ) ≤ 42 ∧ (42 : ℤ) ≤ 999 ∧ durationNumber 42 = some 42 :=
  ⟨by decide, by decide, c9_duration_number_amended.1 42 (by decide) (by decide)⟩

/-- C10: `getTimeText` always returns the zero phrase (empty period list or
duration below the first unit) or the return of some period's loop body
(which is the empty string when the rounded count is zero or the resolved
layout is unset, and otherwise derives from that period's template); the
trailing `d.String()` fallback after the loop is never the result. -/
theorem c10_no_fallback :
    ∀ (plur : ℤ → Category) (cfg : Config) (d : ℤ) (rc : Bool),
      cfg.getTimeText plur d rc = (cfg.Zero, 0) ∨
      ∃ i, ∃ h : i < cfg.Periods.length, usedIndexFrom d rc cfg.Periods = some i ∧
        cfg.getTimeText plur d rc = renderReturn plur (cfg.Periods.get ⟨i, h⟩) d rc := by
  intro plur cfg d rc
  rcases hps : cfg.Periods with _ | ⟨p, rest⟩
  · left
    simp [Config.getTimeText, hps]
  · by_cases hd : d < p.D
    · left
      simp [Config.getTimeText, hps, hd]
    · right
      obtain ⟨i, hlen, hu, ht⟩ := timeTextFrom_renders plur d rc (p :: rest) (by simp)
      refine ⟨i, hlen, hu, ?_⟩
      have hg : cfg.getTimeText plur d rc = timeTextFrom plur d rc (p :: rest) := by
        simp only [Config.getTimeText, hps]
        rw [if_neg hd]
      rw [hg, ht]

/-- Agreement of the embedding with four rows of the repository's test
suite (`timeago_test.go`), evaluated by the kernel. -/
theorem english_agreement_with_tests :
    English.FormatRelativeDuration enPlural 1999999999 = "2 seconds ago" ∧
      English.FormatRelativeDuration enPlural 84600000000000 = "one day ago" ∧
      English.FormatRelativeDuration enPlural 0 = "about a second ago" ∧
      English.FormatRelativeDuration enPlural (-86400000000000) = "in one day" :=
  ⟨by decide, by decide, by decide, by decide⟩

end Timeago
